import Mathlib

/-!
# Message relay hub: a shallow embedding of `server/hub.go` and `crypto/encryption.go`

The hub keeps a registry `map[string]*Client`, and one loop (`Hub.Run`) serialises
registration, deregistration and routing.  The embedding is by explicit state passing:

* the Go map is an association list; `mapStore`, `mapDelete`, `mapLookup` are the three map
  operations the code uses.  Go leaves the iteration order of `range` unspecified; the
  model visits the entries in list order and the iteration lemmas (`handleMessage_perm`,
  `broadcastUserList_perm`) show that another order only permutes the writes;
* a `*websocket.Conn` is a connection identity (`Conn`);
* every `Conn.WriteMessage` / `Conn.Close` call is recorded as an `Effect`, in program order.
  The return value of `WriteMessage` is discarded by the code and so is not modelled;
* `json.Marshal`, `json.Unmarshal`, the AEAD and base64 belong to the Go libraries: the
  argument handed to `json.Marshal` is recorded as a `Payload`, the others are parameters;
* `log.Printf` calls are omitted.
-/

namespace Server

/-- Identity of one `*websocket.Conn`. -/
abbrev Conn := Nat

/-- One octet. -/
abbrev Byte := Fin 256

/-- A frame as read from the socket. -/
abbrev Bytes := List Byte

/-- `type Client struct` (the `Hub` back pointer is left out, `PrivateKey` is a key handle). -/
structure Client where
  ID : String
  Username : String
  Conn : Conn
  PublicKey : String
  PrivateKey : Nat
deriving DecidableEq, Repr

/-- `type Message struct` (`Type_` is the field `Type`, a reserved word here). -/
structure Message where
  Type_ : String
  From : String
  To : String
  Content : String
  PublicKey : String
  Timestamp : String
deriving DecidableEq, Repr

/-- One element of the `users` slice built by `broadcastUserList`:
`map[string]string{"id": .., "username": .., "publicKey": ..}`. -/
structure UserEntry where
  id : String
  username : String
  publicKey : String
deriving DecidableEq, Repr

/-- The value handed to `json.Marshal` before a write: a `Message`, or the
`{"type": "userList", "users": users}` object. -/
inductive Payload where
  | message (m : Message)
  | userList (users : List UserEntry)
deriving DecidableEq, Repr

/-- A call on a connection made by the hub. -/
inductive Effect where
  | write (conn : Conn) (data : Payload)
  | close (conn : Conn)
deriving DecidableEq, Repr

/-- The `clients` field: `map[string]*Client`. -/
abbrev ClientMap := List (String × Client)

/-- `type Hub struct` (the channels are the event list consumed by `run`). -/
structure Hub where
  clients : ClientMap
deriving DecidableEq, Repr

/-- What `Hub.Run` can receive: a value on `register`, `unregister` or `broadcast`. -/
inductive Event where
  | register (client : Client)
  | unregister (client : Client)
  | broadcast (message : Message)
deriving DecidableEq, Repr

/-- `NewHub`: an empty registry. -/
def NewHub : Hub := { clients := [] }

/-- `v, ok := m[k]`. -/
def mapLookup (k : String) : ClientMap → Option Client
  | [] => none
  | (k', v) :: rest => if k' = k then some v else mapLookup k rest

/-- `delete(m, k)`. -/
def mapDelete (k : String) (m : ClientMap) : ClientMap :=
  m.filter (fun e => decide (e.1 ≠ k))

/-- `m[k] = v`: any entry under `k` is replaced. -/
def mapStore (k : String) (v : Client) (m : ClientMap) : ClientMap :=
  mapDelete k m ++ [(k, v)]

/-- `Hub.handleMessage`. -/
def handleMessage (h : Hub) (msg : Message) : List Effect :=
  if msg.Type_ = "chat" ∨ msg.Type_ = "keyExchange" then
    match mapLookup msg.To h.clients with
    | some recipient => [Effect.write recipient.Conn (Payload.message msg)]
    | none => []
  else if msg.Type_ = "broadcast" then
    (h.clients.filter (fun e => decide (e.1 ≠ msg.From))).map
      (fun e => Effect.write e.2.Conn (Payload.message msg))
  else []

/-- The `users` slice of `broadcastUserList`. -/
def userEntries (m : ClientMap) : List UserEntry :=
  m.map (fun e => { id := e.2.ID, username := e.2.Username, publicKey := e.2.PublicKey })

/-- `Hub.broadcastUserList`. -/
def broadcastUserList (h : Hub) : List Effect :=
  let data := Payload.userList (userEntries h.clients)
  h.clients.map (fun e => Effect.write e.2.Conn data)

/-- One iteration of the `select` in `Hub.Run`. -/
def step (h : Hub) : Event → Hub × List Effect
  | Event.register client =>
      let h1 : Hub := { clients := mapStore client.ID client h.clients }
      (h1, broadcastUserList h1)
  | Event.unregister client =>
      match mapLookup client.ID h.clients with
      | some _ =>
          let h1 : Hub := { clients := mapDelete client.ID h.clients }
          (h1, Effect.close client.Conn :: broadcastUserList h1)
      | none => (h, broadcastUserList h)
  | Event.broadcast message => (h, handleMessage h message)

/-- `Hub.Run` on a finite run of events: final hub and all effects in order. -/
def run (h : Hub) : List Event → Hub × List Effect
  | [] => (h, [])
  | e :: es =>
      let r1 := step h e
      let r2 := run r1.1 es
      (r2.1, r1.2 ++ r2.2)

/-- The connections closed by a list of effects, in order. -/
def closedConns : List Effect → List Conn
  | [] => []
  | Effect.close c :: rest => c :: closedConns rest
  | Effect.write _ _ :: rest => closedConns rest

/-- The writes of a list of effects, in order. -/
def writesOf : List Effect → List (Conn × Payload)
  | [] => []
  | Effect.close _ :: rest => writesOf rest
  | Effect.write c d :: rest => (c, d) :: writesOf rest

/-- What `HandleWebSocket` does to its connection and to the hub, in program order. -/
inductive Action where
  | write (conn : Conn) (data : Payload)
  | close (conn : Conn)
  | sendRegister (client : Client)
  | goReadMessages (client : Client)
deriving DecidableEq, Repr

/-- The greeting of the `welcome` frame. -/
def welcomeContent : String := "Connected to server"

/-- `Hub.HandleWebSocket`.  The results of the calls it makes are inputs:
`upgraded` is `upgrader.Upgrade`, `generated` is `crypto.GenerateRSAKeyPair`,
`publicKeyToString` is `crypto.PublicKeyToString` on the generated key, `firstRead` is the
first `conn.ReadMessage` and `unmarshal` is `json.Unmarshal` into a `Message`;
`none` stands for `err != nil`. -/
def HandleWebSocket (upgraded : Option Conn) (generated : Option Nat)
    (publicKeyToString : Nat → Option String) (firstRead : Option Bytes)
    (unmarshal : Bytes → Option Message) : List Action :=
  match upgraded with
  | none => []
  | some conn =>
    match generated with
    | none => [Action.close conn]
    | some privateKey =>
      match publicKeyToString privateKey with
      | none => [Action.close conn]
      | some publicKeyStr =>
        match firstRead with
        | none => [Action.close conn]
        | some message =>
          match unmarshal message with
          | none => [Action.close conn]
          | some regMsg =>
            if regMsg.Type_ = "register" then
              let client : Client :=
                { ID := regMsg.From, Username := regMsg.Content, Conn := conn,
                  PublicKey := regMsg.PublicKey, PrivateKey := privateKey }
              let welcome : Message :=
                { Type_ := "welcome", From := "", To := "", Content := welcomeContent,
                  PublicKey := publicKeyStr, Timestamp := "" }
              [Action.write conn (Payload.message welcome), Action.sendRegister client,
                Action.goReadMessages client]
            else [Action.close conn]

/-- The values `HandleWebSocket` puts on the hub's channels. -/
def hubEvents : List Action → List Event
  | [] => []
  | Action.sendRegister client :: rest => Event.register client :: hubEvents rest
  | _ :: rest => hubEvents rest

/-- One result of `client.Conn.ReadMessage()` in the reader loop. -/
inductive ReadResult where
  | frame (message : Bytes)
  | failed
deriving DecidableEq, Repr

/-- What `readMessages` has put on the hub's channels, and whether it has returned. -/
structure ReaderTrace where
  sent : List Event
  returned : Bool
deriving DecidableEq, Repr

/-- `Hub.readMessages` on the read results that arrive on the connection.  When the results
run out the loop is still blocked in `ReadMessage` (`returned = false`); the deferred
`h.unregister <- client` runs when the function returns. -/
def readMessages (unmarshal : Bytes → Option Message) (client : Client) :
    List ReadResult → ReaderTrace
  | [] => { sent := [], returned := false }
  | ReadResult.failed :: _ => { sent := [Event.unregister client], returned := true }
  | ReadResult.frame message :: rest =>
      match unmarshal message with
      | none => readMessages unmarshal client rest
      | some msg =>
          let r := readMessages unmarshal client rest
          { sent := Event.broadcast msg :: r.sent, returned := r.returned }

end Server

namespace Crypto

open Server (Byte Bytes)

/-- The errors `EncryptMessage` and `DecryptMessage` can return. -/
inductive Error where
  | corruptInput
  | keySize
  | randRead
  | tooShort
  | openFailed
deriving DecidableEq, Repr

/-- The library functions both routines call: `gcm.Seal` (the bytes it appends to `dst`),
`gcm.Open`, `base64.StdEncoding.EncodeToString` and `DecodeString`.  A Go `string` is a
byte sequence, so texts are `Bytes` and the `string`/`[]byte` conversions are identities. -/
structure Primitives where
  gcmSeal : Bytes → Bytes → Bytes → Bytes
  gcmOpen : Bytes → Bytes → Bytes → Option Bytes
  encodeToString : Bytes → Bytes
  decodeString : Bytes → Option Bytes

/-- `gcm.NonceSize()` of `cipher.NewGCM`: the standard nonce size. -/
def nonceSize : Nat := 12

/-- `aes.NewCipher(key)` succeeds exactly for keys of 16, 24 or 32 bytes. -/
def validKey (key : Bytes) : Bool :=
  key.length == 16 || key.length == 24 || key.length == 32

/-- `EncryptMessage`.  `entropy` is what `rand.Reader` yields; `io.ReadFull` takes
`nonceSize` bytes from it or fails. -/
def EncryptMessage (P : Primitives) (entropy : Bytes) (plaintext : Bytes) (key : Bytes) :
    Except Error Bytes :=
  if validKey key then
    if entropy.length < nonceSize then Except.error Error.randRead
    else
      let nonce := entropy.take nonceSize
      let ciphertext := nonce ++ P.gcmSeal key nonce plaintext
      Except.ok (P.encodeToString ciphertext)
  else Except.error Error.keySize

/-- `DecryptMessage`. -/
def DecryptMessage (P : Primitives) (ciphertext : Bytes) (key : Bytes) : Except Error Bytes :=
  match P.decodeString ciphertext with
  | none => Except.error Error.corruptInput
  | some data =>
    if validKey key then
      if data.length < nonceSize then Except.error Error.tooShort
      else
        let nonce := data.take nonceSize
        let ciphertextBytes := data.drop nonceSize
        match P.gcmOpen key nonce ciphertextBytes with
        | none => Except.error Error.openFailed
        | some plaintext => Except.ok plaintext
    else Except.error Error.keySize

/-- A small instance of `Primitives` for evaluation: the seal appends the nonce as a tag,
the text encoding is the identity. -/
def toyPrimitives : Primitives where
  gcmSeal := fun _ nonce plaintext => plaintext ++ nonce
  gcmOpen := fun _ nonce sealed =>
    if sealed.drop (sealed.length - nonce.length) = nonce then
      some (sealed.take (sealed.length - nonce.length))
    else none
  encodeToString := fun d => d
  decodeString := fun t => some t

end Crypto

namespace Server

/-- The histories the handshake and the reader produce, without id reuse.  `live` are the
records registered and not yet unregistered, `used` the connections registrations have
carried.  A registration carries a new connection (`HandleWebSocket` builds each record
on the connection it has just upgraded) and an id that is not in the registry; an
unregister event is for a live record (`readMessages` sends one, after the registration
of its client). -/
def orderly : Hub → List Client → List Conn → List Event → Bool
  | _, _, _, [] => true
  | h, live, used, Event.register c :: es =>
      decide (mapLookup c.ID h.clients = none) && decide (c.Conn ∉ used) &&
        orderly (step h (Event.register c)).1 (c :: live) (c.Conn :: used) es
  | h, live, used, Event.unregister c :: es =>
      decide (c ∈ live) && orderly (step h (Event.unregister c)).1 (live.erase c) used es
  | h, live, used, Event.broadcast _ :: es => orderly h live used es

/-- The registry holds exactly the live records, each under its own id. -/
structure Live (h : Hub) (live : List Client) : Prop where
  keys : (h.clients.map Prod.fst).Nodup
  key_id : ∀ e ∈ h.clients, e.1 = e.2.ID
  nodup : live.Nodup
  mem : ∀ c, c ∈ live ↔ (c.ID, c) ∈ h.clients

/-- The condition on the hub's states that an orderly history is shown to meet
(`orderly_disciplined`): at a registration the id is not in the registry and the
connection is new, at an unregister event the registry holds the event's record under
its id, or nothing. -/
def disciplined : Hub → List Conn → List Event → Bool
  | _, _, [] => true
  | h, used, Event.register c :: es =>
      decide (mapLookup c.ID h.clients = none) && decide (c.Conn ∉ used) &&
        disciplined (step h (Event.register c)).1 (c.Conn :: used) es
  | h, used, Event.unregister c :: es =>
      decide (mapLookup c.ID h.clients = none ∨ mapLookup c.ID h.clients = some c) &&
        disciplined (step h (Event.unregister c)).1 used es
  | h, used, Event.broadcast _ :: es => disciplined h used es

/-- The ownership invariant of the hub: `closed` are the connections closed so far, `used`
the connections registrations have carried, `R` the records registered so far. -/
structure Owned (h : Hub) (closed used : List Conn) (R : Client → Prop) : Prop where
  keys : (h.clients.map Prod.fst).Nodup
  key_id : ∀ e ∈ h.clients, e.1 = e.2.ID
  closed_nodup : closed.Nodup
  live : ∀ e ∈ h.clients, e.2.Conn ∈ used ∧ e.2.Conn ∉ closed
  closed_used : ∀ x ∈ closed, x ∈ used
  conns : (h.clients.map (fun e => e.2.Conn)).Nodup
  used_reg : ∀ x ∈ used, ∃ c, R c ∧ c.Conn = x
  reg : ∀ c, R c → c.Conn ∈ used ∧
    (((c.ID, c) ∈ h.clients ∧ c.Conn ∉ closed) ∨ ((c.ID, c) ∉ h.clients ∧ c.Conn ∈ closed))

/-- Sample records: `alice1` and `alice2` share the id `"a"` on two connections. -/
def alice1 : Client :=
  { ID := "a", Username := "alice", Conn := 1, PublicKey := "pkA", PrivateKey := 11 }

/-- The second record under the id `"a"`. -/
def alice2 : Client :=
  { ID := "a", Username := "alice", Conn := 2, PublicKey := "pkA2", PrivateKey := 12 }

/-- A record under the id `"b"`. -/
def bob : Client :=
  { ID := "b", Username := "bob", Conn := 3, PublicKey := "pkB", PrivateKey := 13 }

/-! ## The map operations -/

theorem mapLookup_eq_none_iff (k : String) (m : ClientMap) :
    mapLookup k m = none ↔ k ∉ m.map Prod.fst := by
  induction m with
  | nil => simp [mapLookup]
  | cons e rest ih =>
    obtain ⟨k', v⟩ := e
    by_cases hk : k' = k
    · simp [mapLookup, hk]
    · have hk' : ¬ k = k' := fun h => hk h.symm
      simp [mapLookup, hk, hk', ih]

theorem mem_of_mapLookup_eq_some {k : String} {m : ClientMap} {v : Client}
    (h : mapLookup k m = some v) : (k, v) ∈ m := by
  induction m with
  | nil => simp [mapLookup] at h
  | cons e rest ih =>
    obtain ⟨k', v'⟩ := e
    by_cases hk : k' = k
    · simp [mapLookup, hk] at h
      simp [hk, h]
    · simp [mapLookup, hk] at h
      exact List.mem_cons_of_mem _ (ih h)

theorem mapLookup_eq_some_of_mem {k : String} {m : ClientMap} {v : Client}
    (hnd : (m.map Prod.fst).Nodup) (h : (k, v) ∈ m) : mapLookup k m = some v := by
  induction m with
  | nil => simp at h
  | cons e rest ih =>
    obtain ⟨k', v'⟩ := e
    simp only [List.map_cons, List.nodup_cons] at hnd
    rcases List.mem_cons.1 h with heq | hmem
    · simp only [Prod.mk.injEq] at heq
      simp [mapLookup, heq.1, heq.2]
    · have hne : k' ≠ k := by
        intro hk
        apply hnd.1
        rw [hk]
        exact List.mem_map.2 ⟨(k, v), hmem, rfl⟩
      simp only [mapLookup, hne, if_false]
      exact ih hnd.2 hmem

theorem mem_mapDelete {k : String} {m : ClientMap} {e : String × Client} :
    e ∈ mapDelete k m ↔ e ∈ m ∧ e.1 ≠ k := by
  simp [mapDelete]

theorem mapDelete_of_lookup_none {k : String} {m : ClientMap} (h : mapLookup k m = none) :
    mapDelete k m = m := by
  rw [mapLookup_eq_none_iff] at h
  unfold mapDelete
  rw [List.filter_eq_self]
  intro e he
  have : e.1 ≠ k := by
    intro hk
    exact h (List.mem_map.2 ⟨e, he, hk⟩)
  simpa using this

theorem mapLookup_mapDelete_self (k : String) (m : ClientMap) :
    mapLookup k (mapDelete k m) = none := by
  rw [mapLookup_eq_none_iff]
  intro hmem
  obtain ⟨e, he, hk⟩ := List.mem_map.1 hmem
  exact (mem_mapDelete.1 he).2 hk

theorem mapLookup_append (k : String) (m1 m2 : ClientMap) :
    mapLookup k (m1 ++ m2) = (mapLookup k m1).orElse (fun _ => mapLookup k m2) := by
  induction m1 with
  | nil => simp [mapLookup]
  | cons e rest ih =>
    obtain ⟨k', v⟩ := e
    by_cases hk : k' = k
    · simp [mapLookup, hk]
    · simp [mapLookup, hk, ih]

theorem mapLookup_mapStore_self (k : String) (v : Client) (m : ClientMap) :
    mapLookup k (mapStore k v m) = some v := by
  unfold mapStore
  rw [mapLookup_append, mapLookup_mapDelete_self]
  simp [mapLookup]

theorem keys_mapDelete_nodup {k : String} {m : ClientMap} (h : (m.map Prod.fst).Nodup) :
    ((mapDelete k m).map Prod.fst).Nodup := by
  unfold mapDelete
  exact (List.filter_sublist m).map Prod.fst |>.nodup h

theorem keys_mapStore_nodup {k : String} {v : Client} {m : ClientMap}
    (h : (m.map Prod.fst).Nodup) : ((mapStore k v m).map Prod.fst).Nodup := by
  unfold mapStore
  rw [List.map_append, List.nodup_append]
  refine ⟨keys_mapDelete_nodup h, by simp, ?_⟩
  intro a ha hb
  simp only [List.map_cons, List.map_nil, List.mem_singleton] at hb
  obtain ⟨e, he, hk⟩ := List.mem_map.1 ha
  exact (mem_mapDelete.1 he).2 (hk.trans hb)

/-! ## Effects of the hub's operations -/

theorem closedConns_append (a b : List Effect) :
    closedConns (a ++ b) = closedConns a ++ closedConns b := by
  induction a with
  | nil => rfl
  | cons e rest ih => cases e <;> simp [closedConns, ih]

theorem closedConns_map_write (m : ClientMap) (f : String × Client → Conn)
    (g : String × Client → Payload) :
    closedConns (m.map (fun e => Effect.write (f e) (g e))) = [] := by
  induction m with
  | nil => rfl
  | cons e rest ih => simpa [closedConns] using ih

theorem writesOf_map_write (m : ClientMap) (f : String × Client → Conn)
    (g : String × Client → Payload) :
    writesOf (m.map (fun e => Effect.write (f e) (g e))) = m.map (fun e => (f e, g e)) := by
  induction m with
  | nil => rfl
  | cons e rest ih => simpa [writesOf] using ih

theorem closedConns_broadcastUserList (h : Hub) : closedConns (broadcastUserList h) = [] := by
  unfold broadcastUserList
  exact closedConns_map_write _ _ _

theorem closedConns_handleMessage (h : Hub) (msg : Message) :
    closedConns (handleMessage h msg) = [] := by
  unfold handleMessage
  split
  · split <;> simp [closedConns]
  · split
    · exact closedConns_map_write _ _ _
    · rfl

/-- Visiting the registry in another order only permutes the writes of `handleMessage`
for a broadcast, and leaves a directed delivery as it is when the keys are distinct. -/
theorem handleMessage_perm (m1 m2 : ClientMap) (msg : Message) (hp : m1.Perm m2)
    (hnd : (m1.map Prod.fst).Nodup) :
    (handleMessage { clients := m1 } msg).Perm (handleMessage { clients := m2 } msg) := by
  have hnd2 : (m2.map Prod.fst).Nodup := (hp.map Prod.fst).nodup_iff.1 hnd
  have hlook : ∀ k, mapLookup k m1 = mapLookup k m2 := by
    intro k
    cases h1 : mapLookup k m1 with
    | none =>
      rw [mapLookup_eq_none_iff] at h1
      symm
      rw [mapLookup_eq_none_iff]
      intro hmem
      exact h1 ((hp.map Prod.fst).mem_iff.2 hmem)
    | some v =>
      exact (mapLookup_eq_some_of_mem hnd2 (hp.mem_iff.1 (mem_of_mapLookup_eq_some h1))).symm
  unfold handleMessage
  simp only [hlook]
  split
  · exact List.Perm.refl _
  · split
    · exact (hp.filter _).map _
    · exact List.Perm.refl _

/-- Visiting the registry in another order permutes the roster entries and the recipients
of `broadcastUserList`. -/
theorem broadcastUserList_perm (m1 m2 : ClientMap) (hp : m1.Perm m2) :
    (userEntries m1).Perm (userEntries m2) ∧
    ((broadcastUserList { clients := m1 }).map
        (fun eff => match eff with
          | Effect.write c _ => c
          | Effect.close c => c)).Perm
      ((broadcastUserList { clients := m2 }).map
        (fun eff => match eff with
          | Effect.write c _ => c
          | Effect.close c => c)) := by
  refine ⟨hp.map _, ?_⟩
  unfold broadcastUserList
  simp only [List.map_map]
  exact hp.map _

/-! ## Routing -/

/-- C1 (directed delivery): for a message of kind `chat` or `keyExchange`, when `msg.To`
is registered `handleMessage` makes exactly one write, the message itself on the
connection of the record registered under `msg.To`, so a sender on another connection is
written nothing; when `msg.To` is not registered it makes no write and no other call. -/
theorem directed_delivery (h : Hub) (msg : Message)
    (hkind : msg.Type_ = "chat" ∨ msg.Type_ = "keyExchange") :
    (∀ recipient, mapLookup msg.To h.clients = some recipient →
      handleMessage h msg = [Effect.write recipient.Conn (Payload.message msg)] ∧
      ∀ sender, mapLookup msg.From h.clients = some sender →
        sender.Conn ≠ recipient.Conn →
        ∀ d, Effect.write sender.Conn d ∉ handleMessage h msg) ∧
    (mapLookup msg.To h.clients = none → handleMessage h msg = []) := by
  have hbody : handleMessage h msg =
      match mapLookup msg.To h.clients with
      | some recipient => [Effect.write recipient.Conn (Payload.message msg)]
      | none => [] := by
    unfold handleMessage
    rw [if_pos hkind]
  constructor
  · intro recipient hto
    have hw : handleMessage h msg = [Effect.write recipient.Conn (Payload.message msg)] := by
      rw [hbody, hto]
    refine ⟨hw, ?_⟩
    intro sender _ hne d hmem
    rw [hw] at hmem
    simp only [List.mem_singleton, Effect.write.injEq] at hmem
    exact hne hmem.1
  · intro hto
    rw [hbody, hto]

/-- Witness of C1: `alice1` writes to `bob`; only connection 3 is written. -/
theorem directed_delivery_witness :
    handleMessage { clients := [("a", alice1), ("b", bob)] }
        { Type_ := "chat", From := "a", To := "b", Content := "hi", PublicKey := "",
          Timestamp := "" } =
      [Effect.write 3 (Payload.message
        { Type_ := "chat", From := "a", To := "b", Content := "hi", PublicKey := "",
          Timestamp := "" })] :=
  ((directed_delivery { clients := [("a", alice1), ("b", bob)] }
      { Type_ := "chat", From := "a", To := "b", Content := "hi", PublicKey := "",
        Timestamp := "" } (Or.inl rfl)).1 bob (by decide)).1

theorem length_filter_ne_key (m : ClientMap) (k : String)
    (hkeys : (m.map Prod.fst).Nodup) (hk : k ∈ m.map Prod.fst) :
    (m.filter (fun e => decide (e.1 ≠ k))).length = m.length - 1 := by
  induction m with
  | nil => simp at hk
  | cons e rest ih =>
    simp only [List.map_cons, List.nodup_cons] at hkeys
    by_cases hek : e.1 = k
    · have hnot : k ∉ rest.map Prod.fst := hek ▸ hkeys.1
      have hall : rest.filter (fun e => decide (e.1 ≠ k)) = rest := by
        rw [List.filter_eq_self]
        intro x hx
        have : x.1 ≠ k := fun hxk => hnot (List.mem_map.2 ⟨x, hx, hxk⟩)
        simpa using this
      rw [List.filter_cons, hall]
      simp [hek]
    · have hk2 : k ∈ rest.map Prod.fst := by
        simp only [List.map_cons, List.mem_cons] at hk
        rcases hk with h1 | h2
        · exact absurd h1.symm hek
        · exact h2
      have hpos : 0 < rest.length := by
        cases rest with
        | nil => simp at hk2
        | cons _ _ => simp
      have := ih hkeys.2 hk2
      simp only [List.filter_cons, hek, ne_eq, not_false_eq_true, decide_True, if_true,
        List.length_cons, this]
      omega

/-- C2 (broadcast delivery): in a registry of `N` records, each on its own connection, a
`broadcast` message whose `From` is registered is written once on the connection of each
record whose id differs from `msg.From` and nowhere else: `N - 1` writes, none of them on
the sender's connection. -/
theorem broadcast_delivery (h : Hub) (msg : Message) (sender : Client)
    (hkeys : (h.clients.map Prod.fst).Nodup)
    (hconns : (h.clients.map (fun e => e.2.Conn)).Nodup)
    (hkind : msg.Type_ = "broadcast")
    (hfrom : mapLookup msg.From h.clients = some sender) :
    (handleMessage h msg).length = h.clients.length - 1 ∧
    (∀ e ∈ h.clients, e.1 ≠ msg.From →
      (handleMessage h msg).count (Effect.write e.2.Conn (Payload.message msg)) = 1) ∧
    (∀ eff ∈ handleMessage h msg, ∃ e ∈ h.clients, e.1 ≠ msg.From ∧
      eff = Effect.write e.2.Conn (Payload.message msg)) ∧
    (∀ d, Effect.write sender.Conn d ∉ handleMessage h msg) := by
  have hne1 : ¬ (msg.Type_ = "chat" ∨ msg.Type_ = "keyExchange") := by
    rw [hkind]; decide
  have hbody : handleMessage h msg =
      (h.clients.filter (fun e => decide (e.1 ≠ msg.From))).map
        (fun e => Effect.write e.2.Conn (Payload.message msg)) := by
    unfold handleMessage
    rw [if_neg hne1, if_pos hkind]
  have hsender : (msg.From, sender) ∈ h.clients := mem_of_mapLookup_eq_some hfrom
  have hinj : ∀ a ∈ h.clients, ∀ b ∈ h.clients, a.2.Conn = b.2.Conn → a = b :=
    fun a ha b hb hab => List.inj_on_of_nodup_map hconns ha hb hab
  have hmemfilter : ∀ eff ∈ handleMessage h msg, ∃ e ∈ h.clients, e.1 ≠ msg.From ∧
      eff = Effect.write e.2.Conn (Payload.message msg) := by
    intro eff heff
    rw [hbody] at heff
    obtain ⟨e, he, rfl⟩ := List.mem_map.1 heff
    rw [List.mem_filter] at he
    exact ⟨e, he.1, by simpa using he.2, rfl⟩
  refine ⟨?_, ?_, hmemfilter, ?_⟩
  · rw [hbody, List.length_map]
    exact length_filter_ne_key h.clients msg.From hkeys
      (List.mem_map.2 ⟨(msg.From, sender), hsender, rfl⟩)
  · intro e he hek
    have hnd : (handleMessage h msg).Nodup := by
      rw [hbody]
      have hsub : ((h.clients.filter (fun e => decide (e.1 ≠ msg.From))).map
          (fun e => e.2.Conn)).Nodup :=
        ((List.filter_sublist h.clients).map _).nodup hconns
      refine List.Nodup.of_map (fun eff => match eff with
        | Effect.write c _ => c
        | Effect.close c => c) ?_
      simpa [List.map_map, Function.comp_def] using hsub
    refine List.count_eq_one_of_mem hnd ?_
    rw [hbody]
    refine List.mem_map.2 ⟨e, ?_, rfl⟩
    rw [List.mem_filter]
    exact ⟨he, by simpa using hek⟩
  · intro d hmem
    obtain ⟨e, he, hek, heq⟩ := hmemfilter _ hmem
    simp only [Effect.write.injEq] at heq
    have := hinj (msg.From, sender) hsender e he heq.1
    exact hek (by rw [← this])

/-- Witness of C2: three records, `bob` broadcasts, two writes. -/
theorem broadcast_delivery_witness :
    (handleMessage
      { clients := [("a", alice1), ("b", bob), ("c", { bob with ID := "c", Conn := 4 })] }
      { Type_ := "broadcast", From := "b", To := "", Content := "all", PublicKey := "",
        Timestamp := "" }).length = 3 - 1 :=
  (broadcast_delivery
    { clients := [("a", alice1), ("b", bob), ("c", { bob with ID := "c", Conn := 4 })] }
    { Type_ := "broadcast", From := "b", To := "", Content := "all", PublicKey := "",
      Timestamp := "" } bob (by decide) (by decide) rfl (by decide)).1

/-! ## The registry along a run -/

theorem step_register (h : Hub) (c : Client) :
    step h (Event.register c) =
      ({ clients := mapStore c.ID c h.clients },
        broadcastUserList { clients := mapStore c.ID c h.clients }) := rfl

theorem step_unregister_present (h : Hub) (c r : Client)
    (hl : mapLookup c.ID h.clients = some r) :
    step h (Event.unregister c) =
      ({ clients := mapDelete c.ID h.clients },
        Effect.close c.Conn :: broadcastUserList { clients := mapDelete c.ID h.clients }) := by
  simp only [step, hl]

theorem step_unregister_absent (h : Hub) (c : Client)
    (hl : mapLookup c.ID h.clients = none) :
    step h (Event.unregister c) = (h, broadcastUserList h) := by
  simp only [step, hl]

theorem step_broadcast (h : Hub) (m : Message) :
    step h (Event.broadcast m) = (h, handleMessage h m) := rfl

theorem step_keys_nodup (h : Hub) (e : Event) (hk : (h.clients.map Prod.fst).Nodup) :
    ((step h e).1.clients.map Prod.fst).Nodup := by
  cases e with
  | register c => exact keys_mapStore_nodup hk
  | unregister c =>
    cases hl : mapLookup c.ID h.clients with
    | none => rw [step_unregister_absent h c hl]; exact hk
    | some r => rw [step_unregister_present h c r hl]; exact keys_mapDelete_nodup hk
  | broadcast m => exact hk

theorem step_key_eq_id (h : Hub) (e : Event) (hk : ∀ x ∈ h.clients, x.1 = x.2.ID) :
    ∀ x ∈ (step h e).1.clients, x.1 = x.2.ID := by
  cases e with
  | register c =>
    intro x hx
    simp only [step, mapStore, List.mem_append, List.mem_singleton] at hx
    rcases hx with hx | hx
    · exact hk x (mem_mapDelete.1 hx).1
    · rw [hx]
  | unregister c =>
    cases hl : mapLookup c.ID h.clients with
    | none => rw [step_unregister_absent h c hl]; exact hk
    | some r =>
      rw [step_unregister_present h c r hl]
      intro x hx
      exact hk x (mem_mapDelete.1 hx).1
  | broadcast m => exact hk

theorem run_registry_wf (es : List Event) (h : Hub)
    (hk : (h.clients.map Prod.fst).Nodup) (hid : ∀ x ∈ h.clients, x.1 = x.2.ID) :
    ((run h es).1.clients.map Prod.fst).Nodup ∧ ∀ x ∈ (run h es).1.clients, x.1 = x.2.ID := by
  induction es generalizing h with
  | nil => exact ⟨hk, hid⟩
  | cons e es ih => exact ih (step h e).1 (step_keys_nodup h e hk) (step_key_eq_id h e hid)

theorem writesOf_broadcastUserList (h : Hub) :
    writesOf (broadcastUserList h) =
      h.clients.map (fun x => (x.2.Conn, Payload.userList (userEntries h.clients))) := by
  unfold broadcastUserList
  exact writesOf_map_write _ _ _

/-- C3 (roster reflects the registry): after any run of events from the empty hub, the
register or unregister event processed next writes one `userList` payload to the
connection of every record then in the registry and to nothing else; the payload holds
one entry per registry record (its ids are the registry keys, without repetition).  After
register `A`, register `B` (distinct ids) the roster is the entries of `A` and `B`; after
a following unregister `A` it is the entry of `B`. -/
theorem roster_reflects_registry (es : List Event) (c A B : Client) (hAB : A.ID ≠ B.ID) :
    (∀ e, e = Event.register c ∨ e = Event.unregister c →
      writesOf (step (run NewHub es).1 e).2 =
        (step (run NewHub es).1 e).1.clients.map
          (fun x => (x.2.Conn,
            Payload.userList (userEntries (step (run NewHub es).1 e).1.clients))) ∧
      (userEntries (step (run NewHub es).1 e).1.clients).map UserEntry.id =
        (step (run NewHub es).1 e).1.clients.map Prod.fst ∧
      ((step (run NewHub es).1 e).1.clients.map Prod.fst).Nodup) ∧
    step (run NewHub [Event.register A]).1 (Event.register B) =
      ({ clients := [(A.ID, A), (B.ID, B)] },
        [Effect.write A.Conn (Payload.userList
            [{ id := A.ID, username := A.Username, publicKey := A.PublicKey },
             { id := B.ID, username := B.Username, publicKey := B.PublicKey }]),
         Effect.write B.Conn (Payload.userList
            [{ id := A.ID, username := A.Username, publicKey := A.PublicKey },
             { id := B.ID, username := B.Username, publicKey := B.PublicKey }])]) ∧
    step (run NewHub [Event.register A, Event.register B]).1 (Event.unregister A) =
      ({ clients := [(B.ID, B)] },
        [Effect.close A.Conn,
         Effect.write B.Conn (Payload.userList
            [{ id := B.ID, username := B.Username, publicKey := B.PublicKey }])]) := by
  have hBA : ¬ B.ID = A.ID := fun h => hAB h.symm
  refine ⟨?_, ?_, ?_⟩
  · intro e he
    have hwf := run_registry_wf es NewHub (by simp [NewHub]) (by simp [NewHub])
    have hwf1 := step_keys_nodup (run NewHub es).1 e hwf.1
    have hwf2 := step_key_eq_id (run NewHub es).1 e hwf.2
    refine ⟨?_, ?_, hwf1⟩
    · rcases he with he | he
      · subst he
        simp only [step]
        exact writesOf_broadcastUserList _
      · subst he
        cases hl : mapLookup c.ID (run NewHub es).1.clients with
        | none =>
          rw [step_unregister_absent _ c hl]
          exact writesOf_broadcastUserList _
        | some r =>
          rw [step_unregister_present _ c r hl]
          simp only [writesOf]
          exact writesOf_broadcastUserList _
    · unfold userEntries
      rw [List.map_map]
      apply List.map_congr_left
      intro x hx
      exact (hwf2 x hx).symm
  · simp [run, step, NewHub, mapStore, mapDelete, broadcastUserList, userEntries, hAB]
  · simp [run, step, NewHub, mapStore, mapDelete, broadcastUserList, userEntries, hAB, hBA,
      mapLookup]

/-- Witness of C3 at `alice1` and `bob`, after one earlier registration. -/
theorem roster_reflects_registry_witness :
    step (run NewHub [Event.register alice1, Event.register bob]).1
        (Event.unregister alice1) =
      ({ clients := [("b", bob)] },
        [Effect.close 1,
         Effect.write 3 (Payload.userList
            [{ id := "b", username := "bob", publicKey := "pkB" }])]) :=
  (roster_reflects_registry [Event.register alice2] bob alice1 bob (by decide)).2.2

theorem run_register_fresh (cs : List Client) (h : Hub)
    (hnew : ∀ c ∈ cs, mapLookup c.ID h.clients = none)
    (hcs : (cs.map Client.ID).Nodup) :
    (run h (cs.map Event.register)).1.clients = h.clients ++ cs.map (fun c => (c.ID, c)) := by
  induction cs generalizing h with
  | nil => simp [run]
  | cons c cs ih =>
    simp only [List.map_cons, List.nodup_cons] at hcs
    have hc : mapLookup c.ID h.clients = none := hnew c (List.mem_cons_self _ _)
    have hstep : (step h (Event.register c)).1.clients = h.clients ++ [(c.ID, c)] := by
      simp only [step, mapStore, mapDelete_of_lookup_none hc]
    simp only [List.map_cons, run]
    rw [ih (step h (Event.register c)).1 ?_ hcs.2, hstep]
    · simp
    · intro c' hc'
      rw [hstep, mapLookup_append, hnew c' (List.mem_cons_of_mem _ hc')]
      have hne : ¬ c.ID = c'.ID := by
        intro heq
        exact hcs.1 (heq ▸ List.mem_map.2 ⟨c', hc', rfl⟩)
      simp [mapLookup, hne]

/-- C4 (admission is insert-or-overwrite keyed by id): from the empty registry, `N`
registrations with pairwise distinct ids leave exactly `N` entries, each record found
under its id; two registrations under one id leave exactly one entry for that id, holding
the later record; and every registration ends with its record stored under its id. -/
theorem admission_insert_or_overwrite (cs : List Client) (hcs : (cs.map Client.ID).Nodup)
    (h : Hub) (c1 c2 : Client) (hid : c1.ID = c2.ID) :
    (run NewHub (cs.map Event.register)).1.clients.length = cs.length ∧
    (∀ c ∈ cs, mapLookup c.ID (run NewHub (cs.map Event.register)).1.clients = some c) ∧
    (run h [Event.register c1, Event.register c2]).1.clients.filter
        (fun e => decide (e.1 = c2.ID)) = [(c2.ID, c2)] ∧
    mapLookup c2.ID (run h [Event.register c1, Event.register c2]).1.clients = some c2 ∧
    (∀ c, mapLookup c.ID (step h (Event.register c)).1.clients = some c) := by
  have hrun := run_register_fresh cs NewHub (by intro c _; rfl) hcs
  have hkeys : ((cs.map (fun c => (c.ID, c))).map Prod.fst).Nodup := by
    simpa [List.map_map, Function.comp_def] using hcs
  refine ⟨?_, ?_, ?_, ?_, ?_⟩
  · rw [hrun]; simp [NewHub]
  · intro c hc
    rw [hrun]
    simp only [NewHub, List.nil_append]
    exact mapLookup_eq_some_of_mem hkeys (List.mem_map.2 ⟨c, hc, rfl⟩)
  · simp only [run, step, mapStore, hid, List.filter_append]
    have hnone : ∀ m : ClientMap,
        (mapDelete c2.ID m).filter (fun e => decide (e.1 = c2.ID)) = [] := by
      intro m
      rw [List.filter_eq_nil_iff]
      intro e he
      simpa using (mem_mapDelete.1 he).2
    have happ : mapDelete c2.ID (mapDelete c2.ID h.clients ++ [(c2.ID, c1)]) =
        mapDelete c2.ID h.clients := by
      simp [mapDelete, List.filter_append, List.filter_filter]
    rw [happ, hnone]
    simp
  · simp only [run, step]
    exact mapLookup_mapStore_self _ _ _
  · intro c
    exact mapLookup_mapStore_self _ _ _

/-- Witness of C4: three distinct ids give three entries; `alice2` replaces `alice1`. -/
theorem admission_insert_or_overwrite_witness :
    (run NewHub ([alice1, bob].map Event.register)).1.clients.length = 2 ∧
    mapLookup "a" (run NewHub [Event.register alice1, Event.register alice2]).1.clients =
      some alice2 :=
  ⟨(admission_insert_or_overwrite [alice1, bob] (by decide) NewHub alice1 alice2 rfl).1,
   (admission_insert_or_overwrite [alice1, bob] (by decide) NewHub alice1 alice2 rfl).2.2.2.1⟩

/-- C5, as amended (eviction is idempotent on the registry and on connections): an
unregister event for a record whose id is not in the registry leaves the registry as it
is and closes no connection; processing the same unregister event twice in a row ends in
the same registry and closes the same connections as processing it once.  The roster
broadcast follows every unregister event, so the second processing adds a repeat of the
roster frames for the unchanged registry and nothing else. -/
theorem eviction_idempotent (h : Hub) (c : Client) :
    (mapLookup c.ID h.clients = none →
      (step h (Event.unregister c)).1 = h ∧
      closedConns (step h (Event.unregister c)).2 = []) ∧
    (run h [Event.unregister c, Event.unregister c]).1 = (run h [Event.unregister c]).1 ∧
    closedConns (run h [Event.unregister c, Event.unregister c]).2 =
      closedConns (run h [Event.unregister c]).2 ∧
    (run h [Event.unregister c, Event.unregister c]).2 =
      (run h [Event.unregister c]).2 ++ broadcastUserList (run h [Event.unregister c]).1 := by
  have habsent : ∀ g : Hub, mapLookup c.ID g.clients = none →
      step g (Event.unregister c) = (g, broadcastUserList g) :=
    fun g hg => step_unregister_absent g c hg
  have hafter : mapLookup c.ID (step h (Event.unregister c)).1.clients = none := by
    cases hl : mapLookup c.ID h.clients with
    | none => rw [step_unregister_absent h c hl]; exact hl
    | some r => rw [step_unregister_present h c r hl]; exact mapLookup_mapDelete_self _ _
  have hsecond := habsent (step h (Event.unregister c)).1 hafter
  refine ⟨?_, ?_, ?_, ?_⟩
  · intro hnone
    rw [habsent h hnone]
    exact ⟨rfl, closedConns_broadcastUserList h⟩
  · simp only [run, hsecond]
  · simp only [run, hsecond, List.append_nil, closedConns_append,
      closedConns_broadcastUserList]
  · simp only [run, hsecond, List.append_nil]

/-- Witness of C5: evicting `alice1` from a registry that holds only `bob`. -/
theorem eviction_idempotent_witness :
    (step { clients := [("b", bob)] } (Event.unregister alice1)).1 =
      { clients := [("b", bob)] } ∧
    closedConns (step { clients := [("b", bob)] } (Event.unregister alice1)).2 = [] :=
  (eviction_idempotent { clients := [("b", bob)] } alice1).1 (by decide)

/-- C5 as stated fails on the frames written: with `alice1` and `bob` registered,
processing the unregister event of `alice1` once closes connection 1 and writes one
roster frame to `bob`; processing it twice writes that roster frame to `bob` twice.  And
an unregister event for an id that is absent still writes a roster frame to `bob`. -/
theorem eviction_repeats_roster :
    (run { clients := [("a", alice1), ("b", bob)] } [Event.unregister alice1]).2 =
      [Effect.close 1,
       Effect.write 3
        (Payload.userList [{ id := "b", username := "bob", publicKey := "pkB" }])] ∧
    (run { clients := [("a", alice1), ("b", bob)] }
        [Event.unregister alice1, Event.unregister alice1]).2 =
      [Effect.close 1,
       Effect.write 3
        (Payload.userList [{ id := "b", username := "bob", publicKey := "pkB" }]),
       Effect.write 3
        (Payload.userList [{ id := "b", username := "bob", publicKey := "pkB" }])] ∧
    mapLookup alice1.ID [("b", bob)] = none ∧
    (step { clients := [("b", bob)] } (Event.unregister alice1)).2 =
      [Effect.write 3
        (Payload.userList [{ id := "b", username := "bob", publicKey := "pkB" }])] := by
  decide

/-! ## Connection ownership -/

theorem owned_register {h : Hub} {closed used : List Conn} {R : Client → Prop} (c : Client)
    (inv : Owned h closed used R) (hnew : mapLookup c.ID h.clients = none)
    (hfresh : c.Conn ∉ used) :
    Owned (step h (Event.register c)).1 (closed ++ closedConns (step h (Event.register c)).2)
      (c.Conn :: used) (fun x => R x ∨ x = c) := by
  have hcl : (step h (Event.register c)).1.clients = h.clients ++ [(c.ID, c)] := by
    simp only [step_register, mapStore, mapDelete_of_lookup_none hnew]
  have heff : closedConns (step h (Event.register c)).2 = [] := by
    rw [step_register]
    exact closedConns_broadcastUserList _
  rw [heff, List.append_nil]
  have hkey : c.ID ∉ h.clients.map Prod.fst := (mapLookup_eq_none_iff _ _).1 hnew
  refine ⟨?_, ?_, inv.closed_nodup, ?_, ?_, ?_, ?_, ?_⟩
  · rw [hcl, List.map_append, List.nodup_append]
    refine ⟨inv.keys, by simp, ?_⟩
    intro a ha hb
    simp only [List.map_cons, List.map_nil, List.mem_singleton] at hb
    exact hkey (hb ▸ ha)
  · intro e he
    rw [hcl, List.mem_append, List.mem_singleton] at he
    rcases he with he | he
    · exact inv.key_id e he
    · rw [he]
  · intro e he
    rw [hcl, List.mem_append, List.mem_singleton] at he
    rcases he with he | he
    · exact ⟨List.mem_cons_of_mem _ (inv.live e he).1, (inv.live e he).2⟩
    · rw [he]
      exact ⟨List.mem_cons_self _ _, fun hc => hfresh (inv.closed_used _ hc)⟩
  · intro x hx
    exact List.mem_cons_of_mem _ (inv.closed_used x hx)
  · rw [hcl, List.map_append, List.nodup_append]
    refine ⟨inv.conns, by simp, ?_⟩
    intro a ha hb
    simp only [List.map_cons, List.map_nil, List.mem_singleton] at hb
    obtain ⟨e, he, rfl⟩ := List.mem_map.1 ha
    exact hfresh (hb ▸ (inv.live e he).1)
  · intro x hx
    rcases List.mem_cons.1 hx with hx | hx
    · exact ⟨c, Or.inr rfl, hx.symm⟩
    · obtain ⟨c', hc', hcx⟩ := inv.used_reg x hx
      exact ⟨c', Or.inl hc', hcx⟩
  · intro x hx
    rcases hx with hx | hx
    · obtain ⟨hu, hor⟩ := inv.reg x hx
      have hxc : x ≠ c := fun heq => hfresh (heq ▸ hu)
      refine ⟨List.mem_cons_of_mem _ hu, ?_⟩
      rcases hor with ⟨hin, hnc⟩ | ⟨hout, hc⟩
      · left
        exact ⟨by rw [hcl]; exact List.mem_append_left _ hin, hnc⟩
      · right
        refine ⟨?_, hc⟩
        rw [hcl, List.mem_append, List.mem_singleton]
        rintro (hin | heq)
        · exact hout hin
        · exact hxc (Prod.mk.inj heq).2
    · subst hx
      refine ⟨List.mem_cons_self _ _, Or.inl ⟨?_, fun hc => hfresh (inv.closed_used _ hc)⟩⟩
      rw [hcl]
      exact List.mem_append_right _ (List.mem_singleton_self _)

theorem owned_unregister_absent {h : Hub} {closed used : List Conn} {R : Client → Prop}
    (c : Client) (inv : Owned h closed used R) (hl : mapLookup c.ID h.clients = none) :
    Owned (step h (Event.unregister c)).1
      (closed ++ closedConns (step h (Event.unregister c)).2) used R := by
  rw [step_unregister_absent h c hl]
  simp only [closedConns_broadcastUserList, List.append_nil]
  exact inv

theorem owned_unregister_present {h : Hub} {closed used : List Conn} {R : Client → Prop}
    (c : Client) (inv : Owned h closed used R) (hl : mapLookup c.ID h.clients = some c) :
    Owned (step h (Event.unregister c)).1
      (closed ++ closedConns (step h (Event.unregister c)).2) used R := by
  rw [step_unregister_present h c c hl]
  simp only [closedConns, closedConns_broadcastUserList]
  have hin : (c.ID, c) ∈ h.clients := mem_of_mapLookup_eq_some hl
  have hlive := inv.live _ hin
  have hinj : ∀ a ∈ h.clients, ∀ b ∈ h.clients, a.2.Conn = b.2.Conn → a = b :=
    fun a ha b hb hab => List.inj_on_of_nodup_map inv.conns ha hb hab
  have hother : ∀ e ∈ mapDelete c.ID h.clients, e.2.Conn ≠ c.Conn := by
    intro e he heq
    have hm := mem_mapDelete.1 he
    have := hinj e hm.1 (c.ID, c) hin heq
    exact hm.2 (by rw [this])
  refine ⟨keys_mapDelete_nodup inv.keys, ?_, ?_, ?_, ?_, ?_, inv.used_reg, ?_⟩
  · intro e he
    exact inv.key_id e (mem_mapDelete.1 he).1
  · rw [List.nodup_append]
    refine ⟨inv.closed_nodup, by simp, ?_⟩
    intro a ha hb
    simp only [List.mem_singleton] at hb
    exact hlive.2 (hb ▸ ha)
  · intro e he
    have hm := mem_mapDelete.1 he
    refine ⟨(inv.live e hm.1).1, ?_⟩
    rw [List.mem_append, List.mem_singleton]
    rintro (hc | hc)
    · exact (inv.live e hm.1).2 hc
    · exact hother e he hc
  · intro x hx
    rw [List.mem_append, List.mem_singleton] at hx
    rcases hx with hx | hx
    · exact inv.closed_used x hx
    · rw [hx]; exact hlive.1
  · exact ((List.filter_sublist h.clients).map _).nodup inv.conns
  · intro x hx
    obtain ⟨hu, hor⟩ := inv.reg x hx
    refine ⟨hu, ?_⟩
    rcases hor with ⟨hxin, hnc⟩ | ⟨hout, hc⟩
    · by_cases hid : x.ID = c.ID
      · right
        refine ⟨fun hmem => (mem_mapDelete.1 hmem).2 hid, ?_⟩
        have hxc : mapLookup c.ID h.clients = some x :=
          mapLookup_eq_some_of_mem inv.keys (hid ▸ hxin)
        rw [hl] at hxc
        rw [← Option.some.inj hxc]
        exact List.mem_append_right _ (List.mem_singleton_self _)
      · left
        have hmem : (x.ID, x) ∈ mapDelete c.ID h.clients := mem_mapDelete.2 ⟨hxin, hid⟩
        refine ⟨hmem, ?_⟩
        rw [List.mem_append, List.mem_singleton]
        rintro (hc | hc)
        · exact hnc hc
        · exact hother _ hmem hc
    · right
      exact ⟨fun hmem => hout (mem_mapDelete.1 hmem).1, List.mem_append_left _ hc⟩

theorem owned_run (es : List Event) :
    ∀ (h : Hub) (closed used : List Conn) (R : Client → Prop), Owned h closed used R →
      disciplined h used es = true →
      ∃ used1, Owned (run h es).1 (closed ++ closedConns (run h es).2) used1
        (fun x => R x ∨ Event.register x ∈ es) := by
  induction es with
  | nil =>
    intro h closed used R inv _
    refine ⟨used, ?_⟩
    simpa [run, closedConns] using inv
  | cons e es ih =>
    intro h closed used R inv hd
    have hrun : closed ++ closedConns (run h (e :: es)).2 =
        (closed ++ closedConns (step h e).2) ++ closedConns (run (step h e).1 es).2 := by
      simp only [run, closedConns_append, List.append_assoc]
    have hfst : (run h (e :: es)).1 = (run (step h e).1 es).1 := rfl
    rw [hrun, hfst]
    cases e with
    | register c =>
      simp only [disciplined, Bool.and_eq_true, decide_eq_true_eq] at hd
      obtain ⟨used1, inv1⟩ := ih _ _ _ _ (owned_register c inv hd.1.1 hd.1.2) hd.2
      refine ⟨used1, ?_⟩
      have hR : (fun x => (R x ∨ x = c) ∨ Event.register x ∈ es) =
          (fun x => R x ∨ Event.register x ∈ Event.register c :: es) := by
        funext x
        simp only [List.mem_cons, Event.register.injEq, eq_iff_iff]
        tauto
      rw [← hR]
      exact inv1
    | unregister c =>
      simp only [disciplined, Bool.and_eq_true, decide_eq_true_eq] at hd
      have inv0 : Owned (step h (Event.unregister c)).1
          (closed ++ closedConns (step h (Event.unregister c)).2) used R := by
        rcases hd.1 with hl | hl
        · exact owned_unregister_absent c inv hl
        · exact owned_unregister_present c inv hl
      obtain ⟨used1, inv1⟩ := ih _ _ _ _ inv0 hd.2
      refine ⟨used1, ?_⟩
      have hR : (fun x => R x ∨ Event.register x ∈ es) =
          (fun x => R x ∨ Event.register x ∈ Event.unregister c :: es) := by
        funext x
        simp
      rw [← hR]
      exact inv1
    | broadcast m =>
      simp only [disciplined] at hd
      have inv0 : Owned (step h (Event.broadcast m)).1
          (closed ++ closedConns (step h (Event.broadcast m)).2) used R := by
        rw [step_broadcast]
        simp only [closedConns_handleMessage, List.append_nil]
        exact inv
      obtain ⟨used1, inv1⟩ := ih _ _ _ _ inv0 hd
      refine ⟨used1, ?_⟩
      have hR : (fun x => R x ∨ Event.register x ∈ es) =
          (fun x => R x ∨ Event.register x ∈ Event.broadcast m :: es) := by
        funext x
        simp
      rw [← hR]
      exact inv1

theorem live_lookup {h : Hub} {live : List Client} (inv : Live h live) {c : Client}
    (hc : c ∈ live) : mapLookup c.ID h.clients = some c :=
  mapLookup_eq_some_of_mem inv.keys ((inv.mem c).1 hc)

theorem live_register {h : Hub} {live : List Client} (c : Client) (inv : Live h live)
    (hnew : mapLookup c.ID h.clients = none) :
    Live (step h (Event.register c)).1 (c :: live) := by
  have hcl : (step h (Event.register c)).1.clients = h.clients ++ [(c.ID, c)] := by
    simp only [step_register, mapStore, mapDelete_of_lookup_none hnew]
  have hkey : c.ID ∉ h.clients.map Prod.fst := (mapLookup_eq_none_iff _ _).1 hnew
  have hnot : (c.ID, c) ∉ h.clients := fun hin => hkey (List.mem_map.2 ⟨(c.ID, c), hin, rfl⟩)
  refine ⟨step_keys_nodup h _ inv.keys, step_key_eq_id h _ inv.key_id, ?_, ?_⟩
  · exact List.nodup_cons.2 ⟨fun hc => hnot ((inv.mem c).1 hc), inv.nodup⟩
  · intro x
    rw [hcl, List.mem_cons, List.mem_append, List.mem_singleton, inv.mem x]
    constructor
    · rintro (hx | hx)
      · right; rw [hx]
      · left; exact hx
    · rintro (hx | hx)
      · right; exact hx
      · left; exact (Prod.mk.inj hx).2

theorem live_unregister {h : Hub} {live : List Client} (c : Client) (inv : Live h live)
    (hc : c ∈ live) : Live (step h (Event.unregister c)).1 (live.erase c) := by
  have hl := live_lookup inv hc
  have hin : (c.ID, c) ∈ h.clients := (inv.mem c).1 hc
  refine ⟨step_keys_nodup h _ inv.keys, step_key_eq_id h _ inv.key_id,
    inv.nodup.erase c, ?_⟩
  intro x
  rw [step_unregister_present h c c hl, inv.nodup.mem_erase_iff, inv.mem x]
  constructor
  · rintro ⟨hne, hx⟩
    refine mem_mapDelete.2 ⟨hx, ?_⟩
    intro hid
    have hx2 : mapLookup c.ID h.clients = some x :=
      mapLookup_eq_some_of_mem inv.keys (hid ▸ hx)
    rw [hl] at hx2
    exact hne (Option.some.inj hx2).symm
  · intro hx
    have hm := mem_mapDelete.1 hx
    exact ⟨fun heq => hm.2 (by rw [heq]), hm.1⟩

theorem orderly_disciplined (es : List Event) :
    ∀ (h : Hub) (live : List Client) (used : List Conn), Live h live →
      orderly h live used es = true → disciplined h used es = true := by
  induction es with
  | nil => intro h live used _ _; rfl
  | cons e es ih =>
    intro h live used inv ho
    cases e with
    | register c =>
      simp only [orderly, Bool.and_eq_true, decide_eq_true_eq] at ho
      simp only [disciplined, Bool.and_eq_true, decide_eq_true_eq]
      exact ⟨ho.1, ih _ _ _ (live_register c inv ho.1.1) ho.2⟩
    | unregister c =>
      simp only [orderly, Bool.and_eq_true, decide_eq_true_eq] at ho
      simp only [disciplined, Bool.and_eq_true, decide_eq_true_eq]
      exact ⟨Or.inr (live_lookup inv ho.1), ih _ _ _ (live_unregister c inv ho.1) ho.2⟩
    | broadcast m =>
      simp only [orderly] at ho
      simp only [disciplined]
      exact ih _ _ _ inv ho

theorem orderly_after (pre suf : List Event) :
    ∀ (h : Hub) (live : List Client) (used : List Conn), Live h live →
      orderly h live used (pre ++ suf) = true →
      ∃ live1 used1, Live (run h pre).1 live1 ∧
        orderly (run h pre).1 live1 used1 suf = true := by
  induction pre with
  | nil =>
    intro h live used inv ho
    exact ⟨live, used, inv, ho⟩
  | cons e pre ih =>
    intro h live used inv ho
    have hfst : (run h (e :: pre)).1 = (run (step h e).1 pre).1 := rfl
    rw [hfst]
    cases e with
    | register c =>
      simp only [List.cons_append, orderly, Bool.and_eq_true, decide_eq_true_eq] at ho
      exact ih _ _ _ (live_register c inv ho.1.1) ho.2
    | unregister c =>
      simp only [List.cons_append, orderly, Bool.and_eq_true, decide_eq_true_eq] at ho
      exact ih _ _ _ (live_unregister c inv ho.1) ho.2
    | broadcast m =>
      simp only [List.cons_append, orderly] at ho
      exact ih _ _ _ inv ho

/-- C6, as amended (connection ownership without id reuse): along every history of
register, unregister and routing events from the empty hub in which no registration
carries an id that is in the registry (each registration being on a new connection and
each unregister event for a record registered and not yet unregistered, as the handshake
and the reader produce them), no connection is closed twice; every registered record is
either still in the registry with its connection not closed, or out of the registry with
its connection closed exactly once; every closed connection is the connection of a
registered record; and every unregister event finds its own record stored under its id,
closes exactly that record's connection and leaves no entry under the id. -/
theorem connection_ownership (es : List Event) (ho : orderly NewHub [] [] es = true) :
    (closedConns (run NewHub es).2).Nodup ∧
    (∀ c, Event.register c ∈ es →
      ((c.ID, c) ∈ (run NewHub es).1.clients ∧ c.Conn ∉ closedConns (run NewHub es).2) ∨
      ((c.ID, c) ∉ (run NewHub es).1.clients ∧
        (closedConns (run NewHub es).2).count c.Conn = 1)) ∧
    (∀ x ∈ closedConns (run NewHub es).2, ∃ c, Event.register c ∈ es ∧ c.Conn = x) ∧
    (∀ pre c post, es = pre ++ Event.unregister c :: post →
      mapLookup c.ID (run NewHub pre).1.clients = some c ∧
      closedConns (step (run NewHub pre).1 (Event.unregister c)).2 = [c.Conn] ∧
      mapLookup c.ID (step (run NewHub pre).1 (Event.unregister c)).1.clients = none) := by
  have live0 : Live NewHub [] := by
    refine ⟨?_, ?_, ?_, ?_⟩ <;> simp [NewHub]
  have inv0 : Owned NewHub [] [] (fun _ => False) := by
    refine ⟨?_, ?_, ?_, ?_, ?_, ?_, ?_, ?_⟩ <;> simp [NewHub]
  have hd := orderly_disciplined es NewHub [] [] live0 ho
  obtain ⟨used1, inv⟩ := owned_run es NewHub [] [] (fun _ => False) inv0 hd
  simp only [List.nil_append, false_or] at inv
  refine ⟨inv.closed_nodup, ?_, ?_, ?_⟩
  · intro c hc
    rcases (inv.reg c hc).2 with hin | hout
    · exact Or.inl hin
    · exact Or.inr ⟨hout.1, List.count_eq_one_of_mem inv.closed_nodup hout.2⟩
  · intro x hx
    exact inv.used_reg x (inv.closed_used x hx)
  · intro pre c post hes
    subst hes
    obtain ⟨live1, used2, hlive, ho2⟩ := orderly_after pre _ NewHub [] [] live0 ho
    simp only [orderly, Bool.and_eq_true, decide_eq_true_eq] at ho2
    have hl := live_lookup hlive ho2.1
    refine ⟨hl, ?_, ?_⟩
    · rw [step_unregister_present _ c c hl]
      simp only [closedConns, closedConns_broadcastUserList]
    · rw [step_unregister_present _ c c hl]
      exact mapLookup_mapDelete_self _ _

/-- Witness of the amended C6: `alice1` and `bob` register, `alice1` leaves, `alice2`
takes the id that is free again, a message is routed, and `alice2` leaves too. -/
theorem connection_ownership_witness :
    orderly NewHub [] [] [Event.register alice1, Event.register bob,
      Event.unregister alice1, Event.register alice2,
      Event.broadcast { Type_ := "chat", From := "a", To := "b", Content := "hi",
                        PublicKey := "", Timestamp := "" },
      Event.unregister alice2] = true ∧
    (closedConns (run NewHub [Event.register alice1, Event.register bob,
      Event.unregister alice1, Event.register alice2,
      Event.broadcast { Type_ := "chat", From := "a", To := "b", Content := "hi",
                        PublicKey := "", Timestamp := "" },
      Event.unregister alice2]).2).Nodup :=
  ⟨by decide,
   (connection_ownership [Event.register alice1, Event.register bob,
    Event.unregister alice1, Event.register alice2,
    Event.broadcast { Type_ := "chat", From := "a", To := "b", Content := "hi",
                      PublicKey := "", Timestamp := "" },
    Event.unregister alice2] (by decide)).1⟩

/-- C6 as stated fails when a registration reuses an id that is in the registry: after
register `alice1`, register `alice2` (same id `"a"`, connections 1 and 2) the registry
holds `alice2` under `"a"`; the unregister event of `alice1` then removes that entry and
closes connection 1.  `alice2` has left the registry with its connection 2 not closed, and
the connection the eviction closed is not the one of the record it removed. -/
theorem ownership_fails_on_id_reuse :
    mapLookup "a" (run NewHub [Event.register alice1, Event.register alice2]).1.clients =
      some alice2 ∧
    (run NewHub [Event.register alice1, Event.register alice2,
      Event.unregister alice1]).1.clients = [] ∧
    closedConns (run NewHub [Event.register alice1, Event.register alice2,
      Event.unregister alice1]).2 = [alice1.Conn] ∧
    alice2.Conn ∉ closedConns (run NewHub [Event.register alice1, Event.register alice2,
      Event.unregister alice1]).2 ∧
    alice1.Conn ≠ alice2.Conn := by
  decide

/-! ## Handshake and reader loop -/

/-- C7 (registration field mapping): when the first frame parses with kind `register`,
`HandleWebSocket` writes exactly one frame, the `welcome` message carrying the generated
public key and the fixed greeting, then puts on `register` one record whose id is the
frame's `From`, whose user name is its `Content` and whose public key is its `PublicKey`
(whatever the generated key is), and then starts the reader for that record. -/
theorem registration_field_mapping (conn : Conn) (privateKey : Nat)
    (publicKeyToString : Nat → Option String) (publicKeyStr : String) (message : Bytes)
    (unmarshal : Bytes → Option Message) (regMsg : Message)
    (hpub : publicKeyToString privateKey = some publicKeyStr)
    (hparse : unmarshal message = some regMsg)
    (hkind : regMsg.Type_ = "register") :
    ∃ client : Client,
      HandleWebSocket (some conn) (some privateKey) publicKeyToString (some message)
          unmarshal =
        [Action.write conn (Payload.message
            { Type_ := "welcome", From := "", To := "", Content := "Connected to server",
              PublicKey := publicKeyStr, Timestamp := "" }),
         Action.sendRegister client, Action.goReadMessages client] ∧
      client.ID = regMsg.From ∧ client.Username = regMsg.Content ∧
      client.PublicKey = regMsg.PublicKey ∧ client.Conn = conn ∧
      hubEvents (HandleWebSocket (some conn) (some privateKey) publicKeyToString
          (some message) unmarshal) = [Event.register client] := by
  refine ⟨{ ID := regMsg.From, Username := regMsg.Content, Conn := conn,
            PublicKey := regMsg.PublicKey, PrivateKey := privateKey }, ?_, rfl, rfl, rfl, rfl, ?_⟩
  · simp only [HandleWebSocket, hpub, hparse, hkind, if_true, welcomeContent]
  · simp only [HandleWebSocket, hpub, hparse, hkind, if_true, hubEvents]

/-- Witness of C7: the frame declares the key `"mine"`, the generated key is `"srv"`. -/
theorem registration_field_mapping_witness :
    ∃ client : Client,
      HandleWebSocket (some 7) (some 5) (fun _ => some "srv") (some [1, 2])
          (fun _ => some { Type_ := "register", From := "u1", To := "", Content := "alice",
                           PublicKey := "mine", Timestamp := "" }) =
        [Action.write 7 (Payload.message
            { Type_ := "welcome", From := "", To := "", Content := "Connected to server",
              PublicKey := "srv", Timestamp := "" }),
         Action.sendRegister client, Action.goReadMessages client] ∧
      client.ID = "u1" ∧ client.Username = "alice" ∧ client.PublicKey = "mine" ∧
      client.Conn = 7 ∧
      hubEvents (HandleWebSocket (some 7) (some 5) (fun _ => some "srv") (some [1, 2])
          (fun _ => some { Type_ := "register", From := "u1", To := "", Content := "alice",
                           PublicKey := "mine", Timestamp := "" })) =
        [Event.register client] :=
  registration_field_mapping 7 5 (fun _ => some "srv") "srv" [1, 2]
    (fun _ => some { Type_ := "register", From := "u1", To := "", Content := "alice",
                     PublicKey := "mine", Timestamp := "" })
    { Type_ := "register", From := "u1", To := "", Content := "alice",
      PublicKey := "mine", Timestamp := "" } rfl rfl rfl

/-- C8 (handshake rejection): when the first frame does not parse, or parses with a kind
other than `register`, `HandleWebSocket` does one thing, closing the connection: no
welcome frame, no value on `register`, no reader; the hub processes nothing and keeps its
registry. -/
theorem handshake_rejection (conn : Conn) (generated : Option Nat)
    (publicKeyToString : Nat → Option String) (message : Bytes)
    (unmarshal : Bytes → Option Message) (h : Hub)
    (hbad : unmarshal message = none ∨
      ∃ m, unmarshal message = some m ∧ m.Type_ ≠ "register") :
    HandleWebSocket (some conn) generated publicKeyToString (some message) unmarshal =
      [Action.close conn] ∧
    hubEvents (HandleWebSocket (some conn) generated publicKeyToString (some message)
      unmarshal) = [] ∧
    run h (hubEvents (HandleWebSocket (some conn) generated publicKeyToString (some message)
      unmarshal)) = (h, []) := by
  have hact : HandleWebSocket (some conn) generated publicKeyToString (some message)
      unmarshal = [Action.close conn] := by
    cases generated with
    | none => rfl
    | some privateKey =>
      cases hp : publicKeyToString privateKey with
      | none => simp only [HandleWebSocket, hp]
      | some publicKeyStr =>
        rcases hbad with hnone | ⟨m, hm, hne⟩
        · simp only [HandleWebSocket, hp, hnone]
        · simp only [HandleWebSocket, hp, hm, hne, if_false]
  rw [hact]
  exact ⟨rfl, rfl, rfl⟩

/-- Witness of C8: a first frame of kind `chat` on connection 7. -/
theorem handshake_rejection_witness :
    HandleWebSocket (some 7) (some 5) (fun _ => some "srv") (some [1, 2])
      (fun _ => some { Type_ := "chat", From := "u1", To := "u2", Content := "hi",
                       PublicKey := "", Timestamp := "" }) = [Action.close 7] :=
  (handshake_rejection 7 (some 5) (fun _ => some "srv") [1, 2]
    (fun _ => some { Type_ := "chat", From := "u1", To := "u2", Content := "hi",
                     PublicKey := "", Timestamp := "" }) NewHub
    (Or.inr ⟨_, rfl, by decide⟩)).1

theorem readMessages_frames (unmarshal : Bytes → Option Message) (client : Client)
    (frames : List Bytes) (rest : List ReadResult) :
    readMessages unmarshal client (frames.map ReadResult.frame ++ rest) =
      { sent := (frames.filterMap unmarshal).map Event.broadcast ++
          (readMessages unmarshal client rest).sent,
        returned := (readMessages unmarshal client rest).returned } := by
  induction frames with
  | nil => simp
  | cons f frames ih =>
    cases hf : unmarshal f with
    | none => simp [readMessages, hf, ih, List.filterMap_cons]
    | some msg => simp [readMessages, hf, ih, List.filterMap_cons]

/-- C9 (reader loop event trace): on read results that are frames followed by the first
read error, `readMessages` returns, having put on the hub's channels the frames that
parse, in the order read (frames that do not parse are skipped), and then exactly one
unregister event for its client; nothing read after the error matters.  While no read
fails, the loop has not returned and no unregister event has been sent. -/
theorem reader_loop_trace (unmarshal : Bytes → Option Message) (client : Client)
    (frames : List Bytes) (rest : List ReadResult) :
    readMessages unmarshal client (frames.map ReadResult.frame ++ ReadResult.failed :: rest) =
      { sent := (frames.filterMap unmarshal).map Event.broadcast ++ [Event.unregister client],
        returned := true } ∧
    (readMessages unmarshal client
        (frames.map ReadResult.frame ++ ReadResult.failed :: rest)).sent.count
      (Event.unregister client) = 1 ∧
    readMessages unmarshal client (frames.map ReadResult.frame) =
      { sent := (frames.filterMap unmarshal).map Event.broadcast, returned := false } := by
  have h1 := readMessages_frames unmarshal client frames (ReadResult.failed :: rest)
  have h2 := readMessages_frames unmarshal client frames []
  simp only [readMessages, List.append_nil] at h1 h2
  refine ⟨h1, ?_, h2⟩
  rw [h1]
  simp only [List.count_append, List.count_singleton_self]
  have : ((frames.filterMap unmarshal).map Event.broadcast).count (Event.unregister client)
      = 0 := by
    rw [List.count_eq_zero]
    intro hmem
    obtain ⟨m, _, hm⟩ := List.mem_map.1 hmem
    cases hm
  rw [this]

end Server

namespace Crypto

open Server (Byte Bytes)

/-! ## Payload encryption -/

theorem toyPrimitives_open_seal (key nonce p : Bytes) :
    toyPrimitives.gcmOpen key nonce (toyPrimitives.gcmSeal key nonce p) = some p := by
  simp [toyPrimitives]

/-- C10 (payload round trip): given that base64 decoding inverts encoding and that
`gcm.Open` inverts `gcm.Seal` under a valid key and a nonce of `nonceSize` bytes, whenever
`EncryptMessage m k` returns a text `c`, the text decodes to the nonce followed by the
sealed bytes, and `DecryptMessage c k` returns `m`; with a 32-byte key and enough entropy
for a nonce `EncryptMessage` does return a text; and `DecryptMessage` returns an error
when the decoded input is shorter than one nonce. -/
theorem payload_round_trip (P : Primitives)
    (hb64 : ∀ d, P.decodeString (P.encodeToString d) = some d)
    (haead : ∀ key nonce p, validKey key = true → nonce.length = nonceSize →
      P.gcmOpen key nonce (P.gcmSeal key nonce p) = some p)
    (m k entropy : Bytes) :
    (∀ c, EncryptMessage P entropy m k = Except.ok c →
      DecryptMessage P c k = Except.ok m ∧
      P.decodeString c =
        some (entropy.take nonceSize ++ P.gcmSeal k (entropy.take nonceSize) m)) ∧
    (k.length = 32 → nonceSize ≤ entropy.length →
      ∃ c, EncryptMessage P entropy m k = Except.ok c) ∧
    (∀ c data, P.decodeString c = some data → data.length < nonceSize →
      DecryptMessage P c k =
        Except.error (if validKey k then Error.tooShort else Error.keySize)) := by
  refine ⟨?_, ?_, ?_⟩
  · intro c hc
    unfold EncryptMessage at hc
    by_cases hk : validKey k = true
    · by_cases he : entropy.length < nonceSize
      · simp [hk, he] at hc
      · simp only [hk, he, if_true, if_false, Except.ok.injEq] at hc
        have hlen : (entropy.take nonceSize).length = nonceSize := by
          rw [List.length_take]
          omega
        have hdec := hb64 (entropy.take nonceSize ++ P.gcmSeal k (entropy.take nonceSize) m)
        rw [hc] at hdec
        refine ⟨?_, hdec⟩
        unfold DecryptMessage
        rw [hdec]
        have hnot : ¬ (entropy.take nonceSize ++
            P.gcmSeal k (entropy.take nonceSize) m).length < nonceSize := by
          rw [List.length_append, hlen]
          omega
        simp only [hk, hnot, if_true, if_false]
        rw [List.take_left' hlen, List.drop_left' hlen, haead k _ m hk hlen]
    · simp [hk] at hc
  · intro hk he
    have hv : validKey k = true := by simp [validKey, hk]
    have hne : ¬ entropy.length < nonceSize := by omega
    refine ⟨P.encodeToString
      (entropy.take nonceSize ++ P.gcmSeal k (entropy.take nonceSize) m), ?_⟩
    simp only [EncryptMessage, hv, hne, if_true, if_false]
  · intro c data hdec hshort
    unfold DecryptMessage
    rw [hdec]
    by_cases hk : validKey k = true
    · simp [hk, hshort]
    · simp [hk]

/-- Witness of C10 on `toyPrimitives`: a 32-byte key, the nonce `7, .., 7` of 12 bytes and
the payload `[104, 105]`; the text is the nonce followed by the sealed bytes. -/
theorem payload_round_trip_witness :
    EncryptMessage toyPrimitives (List.replicate 12 7) [104, 105] (List.replicate 32 1) =
      Except.ok (List.replicate 12 7 ++ ([104, 105] ++ List.replicate 12 7)) ∧
    DecryptMessage toyPrimitives (List.replicate 12 7 ++ ([104, 105] ++ List.replicate 12 7))
      (List.replicate 32 1) = Except.ok [104, 105] :=
  ⟨rfl, ((payload_round_trip toyPrimitives (fun _ => rfl)
    (fun key nonce p _ _ => toyPrimitives_open_seal key nonce p)
    [104, 105] (List.replicate 32 1) (List.replicate 12 7)).1
    (List.replicate 12 7 ++ ([104, 105] ++ List.replicate 12 7)) rfl).1⟩

end Crypto
